import Mathlib

/-!
Verification of the export-resolution and consumer-tracing core of the
`who-imports` dependency-graph tool.

The embedding models the TypeScript sources shallowly:

* `ExportRegistry` / `ConsumerMap` embed the JavaScript `Map` objects as
  association lists (`mapGet` / `mapSet` mirror `Map.get` / `Map.set`:
  `set` replaces the value of an existing key in place and appends new
  keys at the end, which is exactly the insertion-order semantics of a
  JavaScript `Map`).
* The composite string key `"module::name"` is embedded as the pair
  `(module, name)`.
* `path.relative(basePath, -)` is abstracted as a function parameter
  `rel : String → String`; concrete instances use `id`.
* The recursive resolver `resolveExport` is embedded with an explicit
  fuel parameter; a fuel-stability theorem shows the approximations
  converge, i.e. the source recursion terminates.
-/

namespace WhoImports

/-- Embeds `ResolvedExport` of `src/types.ts`. -/
structure ResolvedExport where
  originalModule : String
  originalName : String
  reExportChain : List String
deriving Repr, DecidableEq

/-- Embeds `ExportEntry` of `src/types.ts`. -/
structure ExportEntry where
  module : String
  name : String
  isReExport : Bool
  sourceModule : Option String := none
  sourceName : Option String := none
deriving Repr, DecidableEq

/-- Embeds `Consumer` of `src/types.ts`. -/
structure Consumer where
  module : String
  via : Option (List String) := none
deriving Repr, DecidableEq

/-- Embeds `ExportDependencyInfo` of `src/types.ts`. -/
structure ExportDependencyInfo where
  module : String
  name : String
  consumerCount : Nat
  consumers : List Consumer
deriving Repr, DecidableEq

/-- Composite registry key `"module::name"`, embedded as a pair. -/
abbrev Key := String × String

/-- JavaScript `Map.get`: value of the first (unique) matching key. -/
def mapGet {α β : Type} [DecidableEq α] : List (α × β) → α → Option β
  | [], _ => none
  | kv :: rest, k => if kv.1 = k then some kv.2 else mapGet rest k

/-- JavaScript `Map.set`: replace the value of an existing key in place,
append a new key at the end. -/
def mapSet {α β : Type} [DecidableEq α] : List (α × β) → α → β → List (α × β)
  | [], k, v => [(k, v)]
  | kv :: rest, k, v => if kv.1 = k then (k, v) :: rest else kv :: mapSet rest k v

@[simp] theorem mapGet_nil {α β : Type} [DecidableEq α] (k : α) :
    mapGet ([] : List (α × β)) k = none := rfl

theorem mapGet_cons {α β : Type} [DecidableEq α] (kv : α × β) (rest : List (α × β)) (k : α) :
    mapGet (kv :: rest) k = if kv.1 = k then some kv.2 else mapGet rest k := rfl

@[simp] theorem mapGet_mapSet_self {α β : Type} [DecidableEq α]
    (m : List (α × β)) (k : α) (v : β) : mapGet (mapSet m k v) k = some v := by
  induction m with
  | nil => simp [mapSet, mapGet]
  | cons kv rest ih =>
      by_cases h : kv.1 = k <;> simp [mapSet, mapGet, h, ih]

theorem mapGet_mapSet_ne {α β : Type} [DecidableEq α]
    (m : List (α × β)) (k k' : α) (v : β) (h : k' ≠ k) :
    mapGet (mapSet m k v) k' = mapGet m k' := by
  induction m with
  | nil => simp [mapSet, mapGet, Ne.symm h]
  | cons kv rest ih =>
      by_cases hk : kv.1 = k
      · subst hk
        simp [mapSet, mapGet, Ne.symm h]
      · simp only [mapSet, if_neg hk, mapGet_cons]
        by_cases hk' : kv.1 = k' <;> simp [hk', ih]

/-- Keys of `mapSet m k v`: unchanged if `k` was present, otherwise `k` is
appended. -/
theorem mapSet_keys {α β : Type} [DecidableEq α] (m : List (α × β)) (k : α) (v : β) :
    (mapSet m k v).map Prod.fst =
      if (mapGet m k).isSome then m.map Prod.fst else m.map Prod.fst ++ [k] := by
  induction m with
  | nil => simp [mapSet, mapGet]
  | cons kv rest ih =>
      by_cases h : kv.1 = k
      · simp [mapSet, mapGet, h]
      · simp only [mapSet, if_neg h, mapGet_cons, List.map_cons, ih]
        by_cases hs : (mapGet rest k).isSome <;> simp [h, hs]

theorem mapGet_isSome_iff_mem_keys {α β : Type} [DecidableEq α]
    (m : List (α × β)) (k : α) : (mapGet m k).isSome ↔ k ∈ m.map Prod.fst := by
  induction m with
  | nil => simp [mapGet]
  | cons kv rest ih =>
      by_cases h : kv.1 = k
      · simp [mapGet, h]
      · simp [mapGet, h, ih, Ne.symm h]

theorem mapSet_keys_nodup {α β : Type} [DecidableEq α]
    (m : List (α × β)) (k : α) (v : β) (h : (m.map Prod.fst).Nodup) :
    ((mapSet m k v).map Prod.fst).Nodup := by
  rw [mapSet_keys]
  by_cases hs : (mapGet m k).isSome
  · rw [if_pos hs]; exact h
  · rw [if_neg hs]
    have hk : k ∉ m.map Prod.fst := fun hmem =>
      hs ((mapGet_isSome_iff_mem_keys m k).mpr hmem)
    simp [List.nodup_append, h, hk]

/-- Helper mirroring the
`if (resolved) return { ...resolved, reExportChain: [modulePath, ...chain] }`
pattern of `resolveExport` / `resolveFromStarExports`. -/
def chainPrepend (modulePath : String) : Option ResolvedExport → Option ResolvedExport
  | some resolved => some { resolved with reExportChain := modulePath :: resolved.reExportChain }
  | none => none

/-- Embeds `ExportRegistry` of `src/exports.ts` (`Map<string, ExportEntry>`). -/
abbrev ExportRegistry := List (Key × ExportEntry)

/-- Embeds `resolveExport` of `src/exports.ts`, with the recursion bounded by an
explicit fuel parameter and `path.relative(basePath, -)` abstracted as
`rel`.  The body of `resolveFromStarExports` (called when the key is
absent from the registry) is inlined in the `none` branch so that the
definition is structurally recursive on the fuel; `resolveFromStarExports`
below restates it as the standalone source function. -/
def resolveExport (rel : String → String) (registry : ExportRegistry) :
    Nat → String → String → List Key → Option ResolvedExport
  | 0, _, _, _ => none
  | fuel + 1, modulePath, exportName, visited =>
    if (modulePath, exportName) ∈ visited then none
    else
      match mapGet registry (modulePath, exportName) with
      | none =>
          match mapGet registry (modulePath, "*") with
          | some starEntry =>
              match starEntry.sourceModule with
              | some sm =>
                  chainPrepend modulePath
                    (resolveExport rel registry fuel (rel sm) exportName
                      ((modulePath, exportName) :: visited))
              | none => none
          | none => none
      | some entry =>
          if entry.isReExport = false then
            some ⟨modulePath, exportName, []⟩
          else
            match entry.sourceModule with
            | some sm =>
                chainPrepend modulePath
                  (resolveExport rel registry fuel (rel sm)
                    (entry.sourceName.getD exportName)
                    ((modulePath, exportName) :: visited))
            | none => none

/-- One-step unfolding of `resolveExport` at positive fuel. -/
theorem resolveExport_succ (rel : String → String) (registry : ExportRegistry)
    (fuel : Nat) (modulePath exportName : String) (visited : List Key) :
    resolveExport rel registry (fuel + 1) modulePath exportName visited =
      if (modulePath, exportName) ∈ visited then none
      else
        match mapGet registry (modulePath, exportName) with
        | none =>
            match mapGet registry (modulePath, "*") with
            | some starEntry =>
                match starEntry.sourceModule with
                | some sm =>
                    chainPrepend modulePath
                      (resolveExport rel registry fuel (rel sm) exportName
                        ((modulePath, exportName) :: visited))
                | none => none
            | none => none
        | some entry =>
            if entry.isReExport = false then
              some ⟨modulePath, exportName, []⟩
            else
              match entry.sourceModule with
              | some sm =>
                  chainPrepend modulePath
                    (resolveExport rel registry fuel (rel sm)
                      (entry.sourceName.getD exportName)
                      ((modulePath, exportName) :: visited))
              | none => none := rfl

/-- Embeds `resolveFromStarExports` of `src/exports.ts`. -/
def resolveFromStarExports (rel : String → String) (registry : ExportRegistry)
    (fuel : Nat) (modulePath exportName : String) (visited : List Key) :
    Option ResolvedExport :=
  match mapGet registry (modulePath, "*") with
  | some starEntry =>
      match starEntry.sourceModule with
      | some sm =>
          chainPrepend modulePath
            (resolveExport rel registry fuel (rel sm) exportName visited)
      | none => none
  | none => none

/-- In `resolveExport`, a key absent from the registry falls back to
`resolveFromStarExports`, called with the visited set already containing
the current key. -/
theorem resolveExport_absent_eq_star (rel : String → String) (registry : ExportRegistry)
    (fuel : Nat) (modulePath exportName : String) (visited : List Key)
    (hnv : (modulePath, exportName) ∉ visited)
    (habs : mapGet registry (modulePath, exportName) = none) :
    resolveExport rel registry (fuel + 1) modulePath exportName visited =
      resolveFromStarExports rel registry fuel modulePath exportName
        ((modulePath, exportName) :: visited) := by
  simp [resolveExport, resolveFromStarExports, hnv, habs]

/-- Embeds `ConsumerMap` of `src/consumers.ts` (`Map<string, Consumer[]>`). -/
abbrev ConsumerMap := List (Key × List Consumer)

/-- Embeds `recordConsumer` of `src/consumers.ts`.  The mutating
`consumers.get(key)!.push(consumer)` is embedded as re-setting the key to
the extended list. -/
def recordConsumer (rel : String → String) (registry : ExportRegistry) (fuel : Nat)
    (importedModule exportName consumerModule : String)
    (consumers : ConsumerMap) : ConsumerMap :=
  if importedModule = consumerModule then consumers
  else
    match resolveExport rel registry fuel importedModule exportName [] with
    | none => consumers
    | some resolved =>
        let key : Key := (resolved.originalModule, resolved.originalName)
        let consumers := if (mapGet consumers key).isNone then mapSet consumers key [] else consumers
        let consumer : Consumer :=
          if resolved.reExportChain.length > 0 then
            let intermediaries :=
              resolved.reExportChain.filter (fun m => m ≠ resolved.originalModule)
            if intermediaries.length > 0 then
              { module := consumerModule, via := some intermediaries }
            else { module := consumerModule }
          else { module := consumerModule }
        mapSet consumers key ((mapGet consumers key).getD [] ++ [consumer])

/-! ### Concrete registries used by examples and witnesses -/

/-- A rename cycle whose chain passes back through the original module:
`a::x` re-exports `b::y`, `b::y` re-exports `a::z`, and `a::z` is a direct
declaration. -/
def renameCycleRegistry : ExportRegistry :=
  [ (("a", "x"), ⟨"a", "x", true, some "b", some "y"⟩),
    (("b", "y"), ⟨"b", "y", true, some "a", some "z"⟩),
    (("a", "z"), ⟨"a", "z", false, none, none⟩) ]

/-- The two-module re-export cycle of the spec's cycle-safety property:
`a::x` re-exports `b::x` and vice versa. -/
def cycleRegistry : ExportRegistry :=
  [ (("a", "x"), ⟨"a", "x", true, some "b", some "x"⟩),
    (("b", "x"), ⟨"b", "x", true, some "a", some "x"⟩) ]

/-- Module `m` explicitly re-exports `foo` from `p` and wildcard re-exports from
`q`, which also declares `foo`. -/
def starShadowRegistry : ExportRegistry :=
  [ (("m", "foo"), ⟨"m", "foo", true, some "p", some "foo"⟩),
    (("m", "*"), ⟨"m", "*", true, some "q", none⟩),
    (("p", "foo"), ⟨"p", "foo", false, none, none⟩),
    (("q", "foo"), ⟨"q", "foo", false, none, none⟩) ]

/-- Three-hop chain: `a::x` re-exports `b::x`, `b::x` re-exports `c::x`,
`c::x` is a direct declaration. -/
def threeHopRegistry : ExportRegistry :=
  [ (("a", "x"), ⟨"a", "x", true, some "b", some "x"⟩),
    (("b", "x"), ⟨"b", "x", true, some "c", some "x"⟩),
    (("c", "x"), ⟨"c", "x", false, none, none⟩) ]

/-- Alias module `b` re-exports module `c`'s own export `x`. -/
def aliasOfSelfRegistry : ExportRegistry :=
  [ (("b", "x"), ⟨"b", "x", true, some "c", some "x"⟩),
    (("c", "x"), ⟨"c", "x", false, none, none⟩) ]

/-- A single direct declaration `c::x`. -/
def directOnlyRegistry : ExportRegistry :=
  [ (("c", "x"), ⟨"c", "x", false, none, none⟩) ]

/-! ### C1 — reExportChain vs the `via` list recorded by `recordConsumer` -/

/-- C1 (counterexample): the claim "the returned `reExportChain` never
contains the `originalModule`, so the recorded `via` equals the
`reExportChain` unchanged" is false.  On `renameCycleRegistry`,
resolving `a::x` succeeds with original `a::z` and chain `["a", "b"]`,
which contains the original module `"a"`; `recordConsumer` stores
`via = ["b"]`, not the chain `["a", "b"]`. -/
theorem resolveExport_chain_can_contain_original :
    resolveExport id renameCycleRegistry 10 "a" "x" [] =
        some ⟨"a", "z", ["a", "b"]⟩ ∧
      ("a" ∈ ["a", "b"] ∧
        mapGet (recordConsumer id renameCycleRegistry 10 "a" "x" "d" []) ("a", "z") =
          some [{ module := "d", via := some ["b"] }] ∧
        (["b"] : List String) ≠ ["a", "b"]) := by
  exact ⟨by decide, by decide, by decide, by decide⟩

/-- C1 (amended): for every successful resolution, the consumer appended by
`recordConsumer` carries `via` equal to the resolution's `reExportChain`
with all occurrences of the `originalModule` removed, and `via` is absent
exactly when that filtered list is empty. -/
theorem recordConsumer_via_eq_chain_without_original
    (rel : String → String) (registry : ExportRegistry) (fuel : Nat)
    (im en cm : String) (cmap : ConsumerMap) (r : ResolvedExport)
    (hne : im ≠ cm)
    (hres : resolveExport rel registry fuel im en [] = some r) :
    mapGet (recordConsumer rel registry fuel im en cm cmap)
        (r.originalModule, r.originalName) =
      some (((mapGet cmap (r.originalModule, r.originalName)).getD []) ++
        [{ module := cm,
           via := if r.reExportChain.filter (fun m => m ≠ r.originalModule) = [] then none
                  else some (r.reExportChain.filter (fun m => m ≠ r.originalModule)) }]) := by
  have hconsumer :
      (if r.reExportChain.length > 0 then
        (if (r.reExportChain.filter (fun m => m ≠ r.originalModule)).length > 0 then
          ({ module := cm,
             via := some (r.reExportChain.filter (fun m => m ≠ r.originalModule)) } : Consumer)
        else { module := cm })
      else { module := cm }) =
      ({ module := cm,
         via := if r.reExportChain.filter (fun m => m ≠ r.originalModule) = [] then none
                else some (r.reExportChain.filter (fun m => m ≠ r.originalModule)) } : Consumer) := by
    rcases hchain : r.reExportChain with _ | ⟨a, t⟩
    · simp
    · rw [if_pos (by simp)]
      by_cases hf : (a :: t).filter (fun m => m ≠ r.originalModule) = []
      · rw [hf]
        simp
      · rw [if_pos (List.length_pos.mpr hf), if_neg hf]
  simp only [recordConsumer, if_neg hne, hres, hconsumer]
  rcases hk : mapGet cmap (r.originalModule, r.originalName) with _ | l
  · simp [hk]
  · simp [hk]

/-- C1 (witness): the amended statement applied to the three-hop registry. -/
theorem recordConsumer_via_eq_chain_without_original_witness :
    mapGet (recordConsumer id threeHopRegistry 10 "a" "x" "d" []) ("c", "x") =
      some [{ module := "d", via := some ["a", "b"] }] := by
  have h := recordConsumer_via_eq_chain_without_original id threeHopRegistry 10
    "a" "x" "d" [] ⟨"c", "x", ["a", "b"]⟩ (by decide) (by decide)
  exact h.trans (by decide)

/-! ### C3 — self-import exclusion -/

/-- C3 (counterexample): a module importing its own export *via an alias
module* is recorded as its own consumer.  Module `c` imports `x` from the
alias `b` (which re-exports `c::x`); `recordConsumer` stores the consumer
record `{module := "c"}` under key `c::x`. -/
theorem recordConsumer_alias_self_consumer :
    mapGet (recordConsumer id aliasOfSelfRegistry 10 "b" "x" "c" []) ("c", "x") =
      some [{ module := "c", via := some ["b"] }] := by decide

/-- C3 (amended): only *direct* self-imports are excluded: when the imported
module and the consumer module are identical, `recordConsumer` leaves the
consumer map unchanged (imports of a module's own export routed through an
alias module are still recorded, naming the module as its own consumer). -/
theorem recordConsumer_skips_direct_self_import
    (rel : String → String) (registry : ExportRegistry) (fuel : Nat)
    (im en cm : String) (cmap : ConsumerMap) (h : im = cm) :
    recordConsumer rel registry fuel im en cm cmap = cmap := by
  unfold recordConsumer
  rw [if_pos h]

/-- C3 (witness): direct self-import of `c::x` records nothing. -/
theorem recordConsumer_skips_direct_self_import_witness :
    recordConsumer id aliasOfSelfRegistry 10 "c" "x" "c" [] = [] :=
  recordConsumer_skips_direct_self_import id aliasOfSelfRegistry 10 "c" "x" "c" [] rfl

/-! ### C6 — explicit entries shadow wildcard resolution -/

/-- C6: when an explicit registry entry exists for `(m, n)`, the result of
`resolveExport` is entirely determined by that entry — the wildcard
(`m::*`) entry is never consulted; wildcard resolution
(`resolveFromStarExports`) is attempted exactly when no explicit entry
exists.  In particular, if `m` explicitly re-exports `n` from `p` and also
wildcard re-exports from `q`, resolution follows the explicit entry. -/
theorem resolveExport_explicit_entry_shadows_star
    (rel : String → String) (registry : ExportRegistry) (fuel : Nat)
    (m n : String) (visited : List Key) (e : ExportEntry) :
    (mapGet registry (m, n) = some e → (m, n) ∉ visited →
      resolveExport rel registry (fuel + 1) m n visited =
        (if e.isReExport = false then some ⟨m, n, []⟩
         else match e.sourceModule with
           | some sm =>
               chainPrepend m
                 (resolveExport rel registry fuel (rel sm) (e.sourceName.getD n)
                   ((m, n) :: visited))
           | none => none))
    ∧ (mapGet registry (m, n) = none → (m, n) ∉ visited →
        resolveExport rel registry (fuel + 1) m n visited =
          resolveFromStarExports rel registry fuel m n ((m, n) :: visited)) := by
  constructor
  · intro he hnv
    simp [resolveExport, he, hnv]
  · intro habs hnv
    exact resolveExport_absent_eq_star rel registry fuel m n visited hnv habs

/-- C6 (witness): on `starShadowRegistry`, `m::foo` resolves to the
`p`-sourced original, not the wildcard's `q`-sourced one; for the absent
name `bar`, resolution falls back to `resolveFromStarExports`. -/
theorem resolveExport_explicit_entry_shadows_star_witness :
    resolveExport id starShadowRegistry 5 "m" "foo" [] = some ⟨"p", "foo", ["m"]⟩ ∧
      resolveExport id starShadowRegistry 5 "m" "bar" [] =
        resolveFromStarExports id starShadowRegistry 4 "m" "bar" [("m", "bar")] := by
  constructor
  · have h := (resolveExport_explicit_entry_shadows_star id starShadowRegistry 4
      "m" "foo" [] ⟨"m", "foo", true, some "p", some "foo"⟩).1 (by decide) (by decide)
    exact h.trans (by decide)
  · exact (resolveExport_explicit_entry_shadows_star id starShadowRegistry 4
      "m" "bar" [] ⟨"m", "bar", false, none, none⟩).2 (by decide) (by decide)

/-! ### C7 — three-hop chain ordering -/

/-- C7: for a three-hop chain where `A` re-exports from `B`, `B` re-exports
from `C` and `C` declares the name directly (all three keys distinct),
resolution from `A` returns the original `C` with
`reExportChain = [A, B]` — outermost first, excluding the original. -/
theorem resolveExport_three_hop_chain_order
    (rel : String → String) (registry : ExportRegistry) (fuel : Nat)
    (A nA B nB C nC : String) (eA eB eC : ExportEntry)
    (hA : mapGet registry (A, nA) = some eA) (hAre : eA.isReExport = true)
    (hAsm : eA.sourceModule.map rel = some B) (hAname : eA.sourceName.getD nA = nB)
    (hB : mapGet registry (B, nB) = some eB) (hBre : eB.isReExport = true)
    (hBsm : eB.sourceModule.map rel = some C) (hBname : eB.sourceName.getD nB = nC)
    (hC : mapGet registry (C, nC) = some eC) (hCdir : eC.isReExport = false)
    (hBA : (B, nB) ≠ (A, nA)) (hCA : (C, nC) ≠ (A, nA)) (hCB : (C, nC) ≠ (B, nB)) :
    resolveExport rel registry (fuel + 3) A nA [] = some ⟨C, nC, [A, B]⟩ := by
  rcases hsmA : eA.sourceModule with _ | smA
  · rw [hsmA] at hAsm; simp at hAsm
  rcases hsmB : eB.sourceModule with _ | smB
  · rw [hsmB] at hBsm; simp at hBsm
  rw [hsmA] at hAsm
  rw [hsmB] at hBsm
  simp only [Option.map_some', Option.some_inj] at hAsm hBsm
  have h3 : fuel + 3 = (fuel + 2) + 1 := rfl
  rw [h3]
  simp [resolveExport, hA, hAre, hsmA, hAsm, hAname, hBA,
    hB, hBre, hsmB, hBsm, hBname, hCA, hCB, hC, hCdir, chainPrepend]

/-- C7 (witness): the three-hop registry resolves `a::x` to original `c::x`
with chain `["a", "b"]`. -/
theorem resolveExport_three_hop_chain_order_witness :
    resolveExport id threeHopRegistry 13 "a" "x" [] = some ⟨"c", "x", ["a", "b"]⟩ :=
  resolveExport_three_hop_chain_order id threeHopRegistry 10 "a" "x" "b" "x" "c" "x"
    ⟨"a", "x", true, some "b", some "x"⟩ ⟨"b", "x", true, some "c", some "x"⟩
    ⟨"c", "x", false, none, none⟩
    (by decide) rfl (by decide) rfl (by decide) rfl (by decide) rfl (by decide) rfl
    (by decide) (by decide) (by decide)

/-! ### C9 — idempotence and the chain-empty-iff-direct invariant -/

/-- C9: resolving a `(module, name)` whose registry entry is a direct
declaration returns itself with an empty chain; and for every successful
resolution, the chain is empty iff the queried key's registry entry is a
direct (non-re-export) declaration. -/
theorem resolveExport_idempotent_and_chain_empty_iff_direct
    (rel : String → String) (registry : ExportRegistry) (fuel : Nat)
    (m n : String) (visited : List Key) (r : ResolvedExport) :
    (∀ e, mapGet registry (m, n) = some e → e.isReExport = false →
        resolveExport rel registry (fuel + 1) m n [] = some ⟨m, n, []⟩) ∧
      (resolveExport rel registry fuel m n visited = some r →
        (r.reExportChain = [] ↔
          ∃ e, mapGet registry (m, n) = some e ∧ e.isReExport = false)) := by
  constructor
  · intro e he hdir
    simp [resolveExport, he, hdir]
  · intro hres
    rcases fuel with _ | fuel
    · exact Option.noConfusion hres
    by_cases hv : (m, n) ∈ visited
    · rw [resolveExport_succ, if_pos hv] at hres
      exact Option.noConfusion hres
    rcases hreg : mapGet registry (m, n) with _ | e
    · -- star fallback: any success prepends `m`, so the chain is nonempty
      rw [resolveExport_succ, if_neg hv] at hres
      simp only [hreg] at hres
      rcases hstar : mapGet registry (m, "*") with _ | se
      · simp only [hstar] at hres
        exact Option.noConfusion hres
      simp only [hstar] at hres
      rcases hsm : se.sourceModule with _ | sm
      · simp only [hsm] at hres
        exact Option.noConfusion hres
      simp only [hsm] at hres
      rcases hrec : resolveExport rel registry fuel (rel sm) n ((m, n) :: visited) with _ | r'
      · simp only [hrec, chainPrepend] at hres
        exact Option.noConfusion hres
      simp only [hrec, chainPrepend, Option.some_inj] at hres
      subst hres
      simp [hreg]
    · rw [resolveExport_succ, if_neg hv] at hres
      simp only [hreg] at hres
      by_cases hdir : e.isReExport = false
      · rw [if_pos hdir] at hres
        simp only [Option.some_inj] at hres
        subst hres
        simp [hreg, hdir]
      · rw [if_neg hdir] at hres
        rcases hsm : e.sourceModule with _ | sm
        · simp only [hsm] at hres
          exact Option.noConfusion hres
        simp only [hsm] at hres
        rcases hrec : resolveExport rel registry fuel (rel sm) (e.sourceName.getD n)
            ((m, n) :: visited) with _ | r'
        · simp only [hrec, chainPrepend] at hres
          exact Option.noConfusion hres
        simp only [hrec, chainPrepend, Option.some_inj] at hres
        subst hres
        constructor
        · intro hempty; simp at hempty
        · rintro ⟨e', he', hdir'⟩
          have he2 : e = e' := Option.some_inj.mp he'
          subst he2
          exact absurd hdir' hdir

/-- C9 (witness): `c::x` in `directOnlyRegistry` resolves to itself with an
empty chain, and the iff instantiated at that resolution. -/
theorem resolveExport_idempotent_witness :
    resolveExport id directOnlyRegistry 3 "c" "x" [] = some ⟨"c", "x", []⟩ :=
  (resolveExport_idempotent_and_chain_empty_iff_direct id directOnlyRegistry 2
    "c" "x" [] ⟨"c", "x", []⟩).1 ⟨"c", "x", false, none, none⟩ (by decide) rfl

/-! ### Registry builder (`src/exports.ts`) -/

/-- Value stored in the import map built by `buildImportMap`. -/
structure ImportInfo where
  sourceModule : Option String
  sourceName : String
deriving Repr, DecidableEq

/-- A named import/export specifier: `getName()` plus the optional
`getAliasNode()?.getText()`. -/
structure NamedSpec where
  name : String
  aliasName : Option String := none
deriving Repr, DecidableEq

/-- Source facts of one `ImportDeclaration`. -/
structure ImportDeclFact where
  moduleSpecifier : String
  defaultImport : Option String := none
  namedImports : List NamedSpec := []
  namespaceImport : Option String := none
deriving Repr, DecidableEq

/-- Source facts of one `ExportDeclaration`: either
`export * from '...'` (a namespace export with a module specifier) or a
named export list with an optional `from` specifier. -/
inductive ExportDeclFact where
  | starExport (moduleSpecifier : String)
  | namedExports (specs : List NamedSpec) (moduleSpecifier : Option String)
deriving Repr, DecidableEq

/-- Embeds `resolveModulePath` of `src/exports.ts`.  The project file lookup
`project.getSourceFile` is abstracted as `hasFile`, and
`path.resolve(sourceDir, specifier)` as `pathResolve`. -/
def resolveModulePath (hasFile : String → Bool) (pathResolve : String → String)
    (specifier : String) : Option String :=
  -- `specifier.startsWith('.')`, stated on the character list
  if specifier.data.head? = some '.' then
    let resolved := pathResolve specifier
    let extensions := [".ts", ".tsx", "/index.ts", "/index.tsx"]
    match extensions.find? (fun ext => hasFile (resolved ++ ext)) with
    | some ext => some (resolved ++ ext)
    | none => if hasFile resolved then some resolved else none
  else none

/-- Embeds `buildImportMap` of `src/exports.ts`, over the import-declaration facts,
with `resolveModulePath sourceFile` abstracted as `resolve`. -/
def buildImportMap (resolve : String → Option String)
    (decls : List ImportDeclFact) : List (String × ImportInfo) :=
  decls.foldl (fun importMap d =>
    let resolvedPath := resolve d.moduleSpecifier
    let importMap := match d.defaultImport with
      | some localName => mapSet importMap localName ⟨resolvedPath, "default"⟩
      | none => importMap
    let importMap := d.namedImports.foldl (fun im ni =>
      mapSet im (ni.aliasName.getD ni.name) ⟨resolvedPath, ni.name⟩) importMap
    match d.namespaceImport with
    | some nsName => mapSet importMap nsName ⟨resolvedPath, "*"⟩
    | none => importMap) []

/-- Embeds `processExportDeclaration` of `src/exports.ts`. -/
def processExportDeclaration (resolve : String → Option String)
    (decl : ExportDeclFact) (modulePath : String) (registry : ExportRegistry)
    (importMap : List (String × ImportInfo)) : ExportRegistry :=
  match decl with
  | .starExport spec =>
      match resolve spec with
      | some resolvedPath =>
          mapSet registry (modulePath, "*")
            ⟨modulePath, "*", true, some resolvedPath, none⟩
      | none => registry
  | .namedExports specs mspec =>
      specs.foldl (fun reg ne =>
        let exportedName := ne.name
        let localName := ne.aliasName.getD exportedName
        match mspec with
        | some ms =>
            let resolvedPath := resolve ms
            mapSet reg (modulePath, localName)
              ⟨modulePath, localName, true, some (resolvedPath.getD ms), some exportedName⟩
        | none =>
            match mapGet importMap exportedName with
            | some importInfo =>
                match importInfo.sourceModule with
                | some sm =>
                    mapSet reg (modulePath, localName)
                      ⟨modulePath, localName, true, some sm, some importInfo.sourceName⟩
                | none =>
                    mapSet reg (modulePath, localName)
                      ⟨modulePath, localName, false, none, none⟩
            | none =>
                mapSet reg (modulePath, localName)
                  ⟨modulePath, localName, false, none, none⟩) registry

/-- Embeds `registerDefaultExport` of `src/exports.ts`. -/
def registerDefaultExport (modulePath : String) (registry : ExportRegistry) :
    ExportRegistry :=
  if (mapGet registry (modulePath, "default")).isNone then
    mapSet registry (modulePath, "default") ⟨modulePath, "default", false, none, none⟩
  else registry

/-- The `for (const exportDecl of sourceFile.getExportDeclarations())` loop
of `extractExportsFromFile`. -/
def processExportDeclarations (resolve : String → Option String)
    (decls : List ExportDeclFact) (modulePath : String) (registry : ExportRegistry)
    (importMap : List (String × ImportInfo)) : ExportRegistry :=
  decls.foldl (fun reg d => processExportDeclaration resolve d modulePath reg importMap)
    registry

/-- The `for (const [name, declarations] of getExportedDeclarations())` loop
of `extractExportsFromFile`: each item is the exported name together with
the `isLocal` check (`some` declaration originates in this file). -/
def processInlineExports (modulePath : String) (decls : List (String × Bool))
    (registry : ExportRegistry) : ExportRegistry :=
  decls.foldl (fun reg nd =>
    if (mapGet reg (modulePath, nd.1)).isSome then reg
    else if nd.2 then
      mapSet reg (modulePath, nd.1) ⟨modulePath, nd.1, false, none, none⟩
    else reg) registry

/-- Source facts for one file, as consumed by `extractExportsFromFile`. -/
structure SourceFileFacts where
  importDeclarations : List ImportDeclFact := []
  exportDeclarations : List ExportDeclFact := []
  hasExportAssignment : Bool := false
  exportedDeclarations : List (String × Bool) := []
deriving Repr, DecidableEq

/-- Embeds `extractExportsFromFile` of `src/exports.ts`: export declarations first,
then export assignments (`registerDefaultExport`), then inline exported
declarations. -/
def extractExportsFromFile (resolve : String → Option String)
    (facts : SourceFileFacts) (modulePath : String) (registry : ExportRegistry) :
    ExportRegistry :=
  let importMap := buildImportMap resolve facts.importDeclarations
  let reg1 := processExportDeclarations resolve facts.exportDeclarations modulePath
    registry importMap
  let reg2 := if facts.hasExportAssignment then registerDefaultExport modulePath reg1
    else reg1
  processInlineExports modulePath facts.exportedDeclarations reg2

/-- Lemma: `registerDefaultExport` preserves every entry already present. -/
theorem mapGet_registerDefaultExport_preserve (modulePath : String)
    (registry : ExportRegistry) (k : Key) (v : ExportEntry)
    (h : mapGet registry k = some v) :
    mapGet (registerDefaultExport modulePath registry) k = some v := by
  unfold registerDefaultExport
  by_cases hd : (mapGet registry (modulePath, "default")).isNone
  · rw [if_pos hd]
    by_cases hk : k = (modulePath, "default")
    · subst hk
      rw [h] at hd
      simp at hd
    · rw [mapGet_mapSet_ne _ _ _ _ hk]
      exact h
  · rw [if_neg hd]
    exact h

/-- Lemma: `processInlineExports` preserves every entry already present. -/
theorem mapGet_processInlineExports_preserve (modulePath : String)
    (decls : List (String × Bool)) :
    ∀ (registry : ExportRegistry) (k : Key) (v : ExportEntry),
      mapGet registry k = some v →
      mapGet (processInlineExports modulePath decls registry) k = some v := by
  induction decls with
  | nil => intro registry k v h; exact h
  | cons nd rest ih =>
      intro registry k v h
      have hstep :
          mapGet (if (mapGet registry (modulePath, nd.1)).isSome then registry
            else if nd.2 then
              mapSet registry (modulePath, nd.1) ⟨modulePath, nd.1, false, none, none⟩
            else registry) k = some v := by
        by_cases hp : (mapGet registry (modulePath, nd.1)).isSome
        · rw [if_pos hp]; exact h
        · rw [if_neg hp]
          by_cases hl : nd.2
          · rw [if_pos hl]
            by_cases hk : k = (modulePath, nd.1)
            · subst hk
              rw [h] at hp
              simp at hp
            · rw [mapGet_mapSet_ne _ _ _ _ hk]
              exact h
          · rw [if_neg hl]; exact h
      exact ih _ k v hstep

/-- A fold preserves any invariant its step preserves. -/
theorem foldl_preserves {α γ : Type} (P : α → Prop) (f : α → γ → α)
    (hf : ∀ a x, P a → P (f a x)) :
    ∀ (l : List γ) (a : α), P a → P (l.foldl f a) := by
  intro l
  induction l with
  | nil => intro a h; exact h
  | cons x xs ih => intro a h; exact ih _ (hf a x h)

theorem processExportDeclaration_keys_nodup (resolve : String → Option String)
    (decl : ExportDeclFact) (modulePath : String) (registry : ExportRegistry)
    (importMap : List (String × ImportInfo))
    (h : (registry.map Prod.fst).Nodup) :
    ((processExportDeclaration resolve decl modulePath registry importMap).map
      Prod.fst).Nodup := by
  rcases decl with spec | ⟨specs, mspec⟩
  · rcases hr : resolve spec with _ | rp
    · simpa [processExportDeclaration, hr] using h
    · simp only [processExportDeclaration, hr]
      exact mapSet_keys_nodup _ _ _ h
  · simp only [processExportDeclaration]
    refine foldl_preserves (fun reg : ExportRegistry => (reg.map Prod.fst).Nodup) _ ?_ specs registry h
    intro reg x hreg
    rcases mspec with _ | ms
    · rcases hg : mapGet importMap x.name with _ | info
      · exact mapSet_keys_nodup _ _ _ hreg
      · rcases info with ⟨ism, isn⟩
        rcases ism with _ | sm
        · exact mapSet_keys_nodup _ _ _ hreg
        · exact mapSet_keys_nodup _ _ _ hreg
    · exact mapSet_keys_nodup _ _ _ hreg

theorem registerDefaultExport_keys_nodup (modulePath : String)
    (registry : ExportRegistry) (h : (registry.map Prod.fst).Nodup) :
    ((registerDefaultExport modulePath registry).map Prod.fst).Nodup := by
  unfold registerDefaultExport
  by_cases hd : (mapGet registry (modulePath, "default")).isNone
  · rw [if_pos hd]
    exact mapSet_keys_nodup _ _ _ h
  · rw [if_neg hd]
    exact h

theorem processInlineExports_keys_nodup (modulePath : String)
    (decls : List (String × Bool)) (registry : ExportRegistry)
    (h : (registry.map Prod.fst).Nodup) :
    ((processInlineExports modulePath decls registry).map Prod.fst).Nodup := by
  unfold processInlineExports
  refine foldl_preserves (fun reg : ExportRegistry => (reg.map Prod.fst).Nodup) _ ?_ decls registry h
  intro reg nd hreg
  by_cases hp : (mapGet reg (modulePath, nd.1)).isSome
  · rw [if_pos hp]; exact hreg
  · rw [if_neg hp]
    by_cases hl : nd.2
    · rw [if_pos hl]
      exact mapSet_keys_nodup _ _ _ hreg
    · rw [if_neg hl]; exact hreg

theorem extractExports_keys_nodup (resolve : String → Option String)
    (facts : SourceFileFacts) (modulePath : String) (registry : ExportRegistry)
    (h : (registry.map Prod.fst).Nodup) :
    ((extractExportsFromFile resolve facts modulePath registry).map Prod.fst).Nodup := by
  simp only [extractExportsFromFile]
  have h1 : ((processExportDeclarations resolve facts.exportDeclarations modulePath
      registry (buildImportMap resolve facts.importDeclarations)).map Prod.fst).Nodup := by
    unfold processExportDeclarations
    exact foldl_preserves (fun reg : ExportRegistry => (reg.map Prod.fst).Nodup) _
      (fun reg d hreg => processExportDeclaration_keys_nodup resolve d modulePath reg _ hreg)
      facts.exportDeclarations registry h
  by_cases ha : facts.hasExportAssignment
  · rw [if_pos ha]
    exact processInlineExports_keys_nodup _ _ _
      (registerDefaultExport_keys_nodup _ _ h1)
  · rw [if_neg ha]
    exact processInlineExports_keys_nodup _ _ _ h1

/-! ### C2 — registry construction precedence -/

/-- Helper resolver used by the precedence examples: `./a` and `./b`
resolve to modules `A` and `B`; everything else is unresolvable. -/
def specResolver : String → Option String := fun s =>
  if s = "./a" then some "A" else if s = "./b" then some "B" else none

/-- Facts of a file that first re-exports `X` from `./a` and then also
writes `export { X }` while `X` is imported from `./b`
(an import-then-export of the same key). -/
def overwriteFacts : SourceFileFacts :=
  { importDeclarations :=
      [{ moduleSpecifier := "./b", namedImports := [{ name := "X" }] }],
    exportDeclarations :=
      [.namedExports [{ name := "X" }] (some "./a"),
       .namedExports [{ name := "X" }] none] }

/-- The same facts with only the first export declaration. -/
def overwriteFactsFirstOnly : SourceFileFacts :=
  { overwriteFacts with exportDeclarations := [.namedExports [{ name := "X" }] (some "./a")] }

/-- C2 (counterexample): the first-writer-wins claim is false for export
declarations.  Processing only the first declaration registers `m::X` as a
re-export from `A`, but processing both declarations leaves `m::X`
registered as a re-export from `B` — the later import-then-export
registration overwrote the earlier re-export-declaration entry. -/
theorem extractExports_later_decl_overwrites :
    mapGet (extractExportsFromFile specResolver overwriteFactsFirstOnly "m" []) ("m", "X") =
        some ⟨"m", "X", true, some "A", some "X"⟩ ∧
      mapGet (extractExportsFromFile specResolver overwriteFacts "m" []) ("m", "X") =
        some ⟨"m", "X", true, some "B", some "X"⟩ := by
  exact ⟨by decide, by decide⟩

/-- C2 (amended): each `(module, name)` key holds at most one entry (keys
stay unique), but among export-declaration registrations (re-exports and
import-then-export) the *last* writer wins; the later phases never
overwrite: any entry present after the export-declaration loop survives
`extractExportsFromFile` unchanged, and default-export registration never
overwrites an existing entry for `module::default`. -/
theorem extractExports_decl_entries_preserved
    (resolve : String → Option String) (facts : SourceFileFacts)
    (modulePath : String) (registry : ExportRegistry) (k : Key) (v : ExportEntry) :
    ((registry.map Prod.fst).Nodup →
      ((extractExportsFromFile resolve facts modulePath registry).map Prod.fst).Nodup)
    ∧ (mapGet (processExportDeclarations resolve facts.exportDeclarations modulePath
        registry (buildImportMap resolve facts.importDeclarations)) k = some v →
      mapGet (extractExportsFromFile resolve facts modulePath registry) k = some v)
    ∧ (mapGet registry (modulePath, "default") = some v →
        mapGet (registerDefaultExport modulePath registry) (modulePath, "default") = some v) := by
  refine ⟨fun h => extractExports_keys_nodup resolve facts modulePath registry h, ?_, ?_⟩
  · intro h
    simp only [extractExportsFromFile]
    by_cases ha : facts.hasExportAssignment
    · rw [if_pos ha]
      exact mapGet_processInlineExports_preserve _ _ _ _ _
        (mapGet_registerDefaultExport_preserve _ _ _ _ h)
    · rw [if_neg ha]
      exact mapGet_processInlineExports_preserve _ _ _ _ _ h
  · intro h
    exact mapGet_registerDefaultExport_preserve _ _ _ _ h

/-- C2 (witness): the amended preservation statement applied to the
overwrite example — the `B`-sourced entry written by the last export
declaration survives the default/inline phases. -/
theorem extractExports_decl_entries_preserved_witness :
    mapGet (extractExportsFromFile specResolver overwriteFacts "m" []) ("m", "X") =
      some ⟨"m", "X", true, some "B", some "X"⟩ :=
  (extractExports_decl_entries_preserved specResolver overwriteFacts "m" [] ("m", "X")
    ⟨"m", "X", true, some "B", some "X"⟩).2.1 (by decide)

/-! ### C4 — unresolvable re-export specifiers -/

/-- C4 (counterexample): a *named* re-export whose specifier is
unresolvable still produces a registry key: `export { foo } from 'lodash'`
registers `m::foo` with `sourceModule` equal to the raw specifier
`"lodash"`, contradicting "the registry builder produces no key for it". -/
theorem processExportDeclaration_named_unresolvable_registers :
    mapGet (processExportDeclaration (fun _ => none)
        (.namedExports [{ name := "foo" }] (some "lodash")) "m" [] []) ("m", "foo") =
      some ⟨"m", "foo", true, some "lodash", some "foo"⟩ := by decide

/-- C4 (amended): `resolveModulePath` yields no key for any non-relative
specifier; a *wildcard* re-export with an unresolvable specifier registers
nothing; a *named* re-export with an unresolvable specifier is still
registered, with `sourceModule` set to the raw specifier; no error is
raised in any case. -/
theorem unresolvable_specifier_handling
    (hasFile : String → Bool) (pathResolve : String → String)
    (resolve : String → Option String) (spec modulePath : String)
    (registry : ExportRegistry) (importMap : List (String × ImportInfo))
    (ne : NamedSpec) :
    (spec.data.head? ≠ some '.' →
        resolveModulePath hasFile pathResolve spec = none)
    ∧ (resolve spec = none →
        processExportDeclaration resolve (.starExport spec) modulePath registry
          importMap = registry)
    ∧ (resolve spec = none →
        processExportDeclaration resolve (.namedExports [ne] (some spec)) modulePath
            registry importMap =
          mapSet registry (modulePath, ne.aliasName.getD ne.name)
            ⟨modulePath, ne.aliasName.getD ne.name, true, some spec, some ne.name⟩) := by
  refine ⟨fun h => ?_, fun h => ?_, fun h => ?_⟩
  · unfold resolveModulePath
    rw [if_neg h]
  · simp [processExportDeclaration, h]
  · simp [processExportDeclaration, h]

/-- C4 (witness): the amended statement applied to the external specifier
`lodash` (non-relative, unresolvable). -/
theorem unresolvable_specifier_handling_witness :
    resolveModulePath (fun _ => true) id "lodash" = none ∧
      processExportDeclaration (fun _ => none) (.starExport "lodash") "m" [] [] = [] := by
  have h := unresolvable_specifier_handling (fun _ => true) id (fun _ => none)
    "lodash" "m" [] [] { name := "foo" }
  exact ⟨h.1 (by decide), h.2.1 rfl⟩

/-! ### Aggregator (`src/consumers.ts`) -/

/-- Lexicographic comparison of character lists; embeds the ascending
`localeCompare` comparisons of the sort callbacks. -/
def stringLeChars : List Char → List Char → Bool
  | [], _ => true
  | _ :: _, [] => false
  | a :: as, b :: bs => if a < b then true else if b < a then false else stringLeChars as bs

/-- Ascending lexicographic string comparison. -/
def stringLe (a b : String) : Bool := stringLeChars a.data b.data

/-- Stable insertion of `a` into a sorted list (kept before the first
element `b` with `le a b`). -/
def orderedInsert {α : Type} (le : α → α → Bool) (a : α) : List α → List α
  | [] => [a]
  | b :: l => if le a b then a :: b :: l else b :: orderedInsert le a l

/-- Stable sort by the boolean comparator `le`; embeds
`Array.prototype.sort` (a stable comparison sort, whose result is uniquely
determined by the comparator). -/
def insertionSort {α : Type} (le : α → α → Bool) : List α → List α
  | [] => []
  | a :: l => orderedInsert le a (insertionSort le l)

theorem perm_orderedInsert {α : Type} (le : α → α → Bool) (a : α) (l : List α) :
    (orderedInsert le a l).Perm (a :: l) := by
  induction l with
  | nil => exact List.Perm.refl _
  | cons b l ih =>
      unfold orderedInsert
      by_cases h : le a b
      · rw [if_pos h]
      · rw [if_neg h]
        exact (ih.cons b).trans (List.Perm.swap a b l)

theorem perm_insertionSort {α : Type} (le : α → α → Bool) (l : List α) :
    (insertionSort le l).Perm l := by
  induction l with
  | nil => exact List.Perm.refl _
  | cons a l ih =>
      exact (perm_orderedInsert le a (insertionSort le l)).trans (ih.cons a)

/-- The loop body of `deduplicateConsumers` over the `seen` map. -/
def dedupStep (seen : List (String × Consumer)) (consumer : Consumer) :
    List (String × Consumer) :=
  match mapGet seen consumer.module with
  | none => mapSet seen consumer.module consumer
  | some existing =>
      if consumer.via.isSome && existing.via.isNone then
        mapSet seen consumer.module consumer
      else seen

/-- Embeds `deduplicateConsumers` of `src/consumers.ts`: fold consumers into a map
keyed by consumer module (first writer kept, unless a later record carries
`via` and the kept one does not), then the values sorted by module. -/
def deduplicateConsumers (consumers : List Consumer) : List Consumer :=
  let seen := consumers.foldl dedupStep []
  insertionSort (fun a b => stringLe a.module b.module) (seen.map (·.2))

/-- Comparator of the final output sort: by module, then by name. -/
def depInfoLe (a b : ExportDependencyInfo) : Bool :=
  if a.module = b.module then stringLe a.name b.name else stringLe a.module b.module

/-- The loop body of `buildDependencyOutput` over the registry values,
with accumulator `(output, processedExports)`. -/
def buildDependencyStep (rel : String → String) (fuel : Nat)
    (registry : ExportRegistry) (consumers : ConsumerMap)
    (acc : List ExportDependencyInfo × List Key) (entry : ExportEntry) :
    List ExportDependencyInfo × List Key :=
  if entry.name = "*" then acc
  else
    match resolveExport rel registry fuel entry.module entry.name [] with
    | none => acc
    | some resolved =>
        let originalKey : Key := (resolved.originalModule, resolved.originalName)
        if originalKey ∈ acc.2 then acc
        else
          let exportConsumers := (mapGet consumers originalKey).getD []
          let uniqueConsumers := deduplicateConsumers exportConsumers
          (acc.1 ++ [⟨resolved.originalModule, resolved.originalName,
              uniqueConsumers.length, uniqueConsumers⟩],
            originalKey :: acc.2)

/-- Embeds `buildDependencyOutput` of `src/consumers.ts`. -/
def buildDependencyOutput (rel : String → String) (fuel : Nat)
    (registry : ExportRegistry) (consumers : ConsumerMap) :
    List ExportDependencyInfo :=
  let result := (registry.map (·.2)).foldl
    (buildDependencyStep rel fuel registry consumers) ([], [])
  insertionSort depInfoLe result.1

/-- Every row accumulated by the `buildDependencyOutput` fold has
`consumerCount` equal to the length of its (deduplicated) consumer list. -/
theorem buildDependencyStep_fold_rows (rel : String → String) (fuel : Nat)
    (registry : ExportRegistry) (consumers : ConsumerMap)
    (es : List ExportEntry) :
    ∀ (acc : List ExportDependencyInfo × List Key),
      (∀ r ∈ acc.1, r.consumerCount = r.consumers.length ∧
        ∃ cs, r.consumers = deduplicateConsumers cs) →
      ∀ r ∈ (es.foldl (buildDependencyStep rel fuel registry consumers) acc).1,
        r.consumerCount = r.consumers.length ∧
          ∃ cs, r.consumers = deduplicateConsumers cs := by
  induction es with
  | nil => intro acc hacc; exact hacc
  | cons e es ih =>
      intro acc hacc
      refine ih _ ?_
      intro r hr
      unfold buildDependencyStep at hr
      by_cases hstar : e.name = "*"
      · rw [if_pos hstar] at hr; exact hacc r hr
      rw [if_neg hstar] at hr
      rcases hres : resolveExport rel registry fuel e.module e.name [] with _ | resolved
      · simp only [hres] at hr; exact hacc r hr
      simp only [hres] at hr
      by_cases hmem : (resolved.originalModule, resolved.originalName) ∈ acc.2
      · rw [if_pos hmem] at hr; exact hacc r hr
      rw [if_neg hmem] at hr
      simp only [List.mem_append, List.mem_singleton] at hr
      rcases hr with hr | hr
      · exact hacc r hr
      · subst hr
        exact ⟨rfl, _, rfl⟩

/-- Rows of `buildDependencyOutput`: `consumerCount` is the length of the
consumer list, and the consumer list is a deduplicated one. -/
theorem buildDependencyOutput_rows (rel : String → String) (fuel : Nat)
    (registry : ExportRegistry) (cmap : ConsumerMap) (row : ExportDependencyInfo)
    (h : row ∈ buildDependencyOutput rel fuel registry cmap) :
    row.consumerCount = row.consumers.length ∧
      ∃ cs, row.consumers = deduplicateConsumers cs := by
  unfold buildDependencyOutput at h
  have h2 := (perm_insertionSort depInfoLe _).mem_iff.mp h
  exact buildDependencyStep_fold_rows rel fuel registry cmap _ ([], [])
    (by intro r hr; simp at hr) row h2

/-! ### Properties of the `seen` map of `deduplicateConsumers` -/

/-- Invariant of the `seen` map: values are stored under their own module
key, and keys are unique (a JavaScript `Map`). -/
def SeenInv (seen : List (String × Consumer)) : Prop :=
  (∀ p ∈ seen, p.2.module = p.1) ∧ (seen.map Prod.fst).Nodup

theorem mapSet_mem {α β : Type} [DecidableEq α] {P : α × β → Prop}
    (m : List (α × β)) (k : α) (v : β)
    (hm : ∀ p ∈ m, P p) (hv : P (k, v)) : ∀ p ∈ mapSet m k v, P p := by
  induction m with
  | nil =>
      intro p hp
      simp only [mapSet, List.mem_singleton] at hp
      subst hp; exact hv
  | cons kv rest ih =>
      intro p hp
      by_cases h : kv.1 = k
      · simp only [mapSet, if_pos h] at hp
        rcases List.mem_cons.mp hp with rfl | hp
        · exact hv
        · exact hm p (List.mem_cons_of_mem _ hp)
      · simp only [mapSet, if_neg h] at hp
        rcases List.mem_cons.mp hp with rfl | hp
        · exact hm _ (List.mem_cons_self _ _)
        · exact ih (fun q hq => hm q (List.mem_cons_of_mem _ hq)) p hp

theorem dedupStep_none (seen : List (String × Consumer)) (c : Consumer)
    (h : mapGet seen c.module = none) :
    dedupStep seen c = mapSet seen c.module c := by
  unfold dedupStep; rw [h]

theorem dedupStep_some (seen : List (String × Consumer)) (c ex : Consumer)
    (h : mapGet seen c.module = some ex) :
    dedupStep seen c =
      if (c.via.isSome && ex.via.isNone) = true then mapSet seen c.module c
      else seen := by
  unfold dedupStep; rw [h]

theorem dedupStep_inv (seen : List (String × Consumer)) (c : Consumer)
    (h : SeenInv seen) : SeenInv (dedupStep seen c) := by
  rcases hg : mapGet seen c.module with _ | ex
  · rw [dedupStep_none seen c hg]
    exact ⟨mapSet_mem seen c.module c h.1 rfl, mapSet_keys_nodup _ _ _ h.2⟩
  · rw [dedupStep_some seen c ex hg]
    by_cases hcond : (c.via.isSome && ex.via.isNone) = true
    · rw [if_pos hcond]
      exact ⟨mapSet_mem seen c.module c h.1 rfl, mapSet_keys_nodup _ _ _ h.2⟩
    · rw [if_neg hcond]
      exact h

theorem seenInv_foldl (cs : List Consumer) :
    ∀ seen, SeenInv seen → SeenInv (cs.foldl dedupStep seen) := by
  induction cs with
  | nil => intro seen h; exact h
  | cons c cs ih => intro seen h; exact ih _ (dedupStep_inv seen c h)

theorem mapGet_dedupStep_isSome (seen : List (String × Consumer)) (c : Consumer)
    (m : String) :
    (mapGet (dedupStep seen c) m).isSome ↔
      (mapGet seen m).isSome ∨ c.module = m := by
  by_cases hm : c.module = m
  · subst hm
    rcases hg : mapGet seen c.module with _ | ex
    · rw [dedupStep_none seen c hg, mapGet_mapSet_self]
      simp
    · rw [dedupStep_some seen c ex hg]
      by_cases hcond : (c.via.isSome && ex.via.isNone) = true
      · rw [if_pos hcond, mapGet_mapSet_self]
        simp
      · rw [if_neg hcond, hg]
        simp
  · rcases hg : mapGet seen c.module with _ | ex
    · rw [dedupStep_none seen c hg, mapGet_mapSet_ne _ _ _ _ (fun h => hm h.symm)]
      simp [hm]
    · rw [dedupStep_some seen c ex hg]
      by_cases hcond : (c.via.isSome && ex.via.isNone) = true
      · rw [if_pos hcond, mapGet_mapSet_ne _ _ _ _ (fun h => hm h.symm)]
        simp [hm]
      · rw [if_neg hcond]
        simp [hm]

theorem mapGet_foldl_dedupStep_isSome (cs : List Consumer) :
    ∀ (seen : List (String × Consumer)) (m : String),
      (mapGet (cs.foldl dedupStep seen) m).isSome ↔
        (mapGet seen m).isSome ∨ cs.any (fun c => c.module = m) := by
  induction cs with
  | nil => intro seen m; simp
  | cons c cs ih =>
      intro seen m
      rw [List.foldl_cons, ih, mapGet_dedupStep_isSome]
      simp [or_assoc]

/-- With unique keys and module-keyed values, the values list contains
exactly one record per present module. -/
theorem seen_values_filter_length (seen : List (String × Consumer))
    (hinv : SeenInv seen) (m : String) :
    ((seen.map (·.2)).filter (fun c => c.module = m)).length =
      if (mapGet seen m).isSome then 1 else 0 := by
  induction seen with
  | nil => simp [mapGet]
  | cons kv rest ih =>
      obtain ⟨hmod, hnd⟩ := hinv
      have hmodkv : kv.2.module = kv.1 := hmod kv (List.mem_cons_self _ _)
      have hkey : kv.1 ∉ rest.map Prod.fst := by
        simp only [List.map_cons, List.nodup_cons] at hnd
        exact hnd.1
      have hrest : SeenInv rest :=
        ⟨fun p hp => hmod p (List.mem_cons_of_mem _ hp), by
          simp only [List.map_cons, List.nodup_cons] at hnd
          exact hnd.2⟩
      by_cases hm : kv.1 = m
      · subst hm
        have hnone : mapGet rest kv.1 = none := by
          rcases hg : mapGet rest kv.1 with _ | x
          · rfl
          · exact absurd ((mapGet_isSome_iff_mem_keys rest kv.1).mp (by simp [hg])) hkey
        have h0 := ih hrest
        rw [hnone] at h0
        simp only [Option.isSome_none, Bool.false_eq_true, if_false] at h0
        simp only [List.map_cons, List.filter_cons, hmodkv, mapGet_cons, if_pos rfl]
        simp [h0]
      · simp only [List.map_cons, List.filter_cons, hmodkv, mapGet_cons, if_neg hm]
        rw [if_neg (by simpa using hm)]
        exact ih hrest

/-- With unique keys, a member of the map is what lookup returns. -/
theorem mapGet_of_mem_nodup (seen : List (String × Consumer))
    (hnd : (seen.map Prod.fst).Nodup) (k : String) (c : Consumer)
    (hmem : (k, c) ∈ seen) : mapGet seen k = some c := by
  induction seen with
  | nil => simp at hmem
  | cons kv rest ih =>
      simp only [List.map_cons, List.nodup_cons] at hnd
      rcases List.mem_cons.mp hmem with hp | hp
      · subst hp
        simp [mapGet]
      · have hk : kv.1 ≠ k := by
          intro hcontra
          exact hnd.1 (hcontra ▸ (List.mem_map.mpr ⟨(k, c), hp, rfl⟩))
        rw [mapGet_cons, if_neg hk]
        exact ih hnd.2 hp

/-- After folding, the record stored for module `m` carries `via` whenever
any processed consumer for `m` carried `via` (or the record already stored
did). -/
theorem dedup_foldl_via (m : String) (cs : List Consumer) :
    ∀ (seen : List (String × Consumer)),
      ((∃ c ∈ cs, c.module = m ∧ c.via.isSome = true) ∨
        (∃ c, mapGet seen m = some c ∧ c.via.isSome = true)) →
      ∃ c, mapGet (cs.foldl dedupStep seen) m = some c ∧ c.via.isSome = true := by
  induction cs with
  | nil =>
      intro seen h
      rcases h with ⟨c, hc, _⟩ | h
      · simp at hc
      · exact h
  | cons c0 cs ih =>
      intro seen h
      rw [List.foldl_cons]
      apply ih
      rcases h with ⟨c, hc, hcm, hcvia⟩ | ⟨cst, hst, hstvia⟩
      · rcases List.mem_cons.mp hc with rfl | hc
        · right
          rcases hg : mapGet seen c.module with _ | ex
          · rw [dedupStep_none seen c hg]
            exact ⟨c, by rw [← hcm, mapGet_mapSet_self], hcvia⟩
          · rw [dedupStep_some seen c ex hg]
            by_cases hcond : (c.via.isSome && ex.via.isNone) = true
            · rw [if_pos hcond]
              exact ⟨c, by rw [← hcm, mapGet_mapSet_self], hcvia⟩
            · rw [if_neg hcond]
              refine ⟨ex, by rw [← hcm]; exact hg, ?_⟩
              rcases hvia : ex.via with _ | v
              · exact absurd (by simp [hcvia, hvia]) hcond
              · simp [hvia]
        · exact Or.inl ⟨c, hc, hcm, hcvia⟩
      · right
        by_cases hm : c0.module = m
        · rw [dedupStep_some seen c0 cst (by rw [hm]; exact hst)]
          have hcond : (c0.via.isSome && cst.via.isNone) = false := by
            rcases hvia : cst.via with _ | v
            · rw [hvia] at hstvia; simp at hstvia
            · simp [hvia]
          rw [if_neg (by simp [hcond])]
          exact ⟨cst, hst, hstvia⟩
        · rcases hg : mapGet seen c0.module with _ | ex
          · rw [dedupStep_none seen c0 hg,
              mapGet_mapSet_ne _ _ _ _ (fun h => hm h.symm)]
            exact ⟨cst, hst, hstvia⟩
          · rw [dedupStep_some seen c0 ex hg]
            by_cases hcond : (c0.via.isSome && ex.via.isNone) = true
            · rw [if_pos hcond, mapGet_mapSet_ne _ _ _ _ (fun h => hm h.symm)]
              exact ⟨cst, hst, hstvia⟩
            · rw [if_neg hcond]
              exact ⟨cst, hst, hstvia⟩

/-! ### C8 — consumer deduplication in the aggregated output -/

/-- C8: `deduplicateConsumers` keeps exactly one record per consumer module
(one when the module occurs in the input, none otherwise); whenever any
input record for a module carries `via`, the surviving record for that
module carries `via`; and every row of `buildDependencyOutput` carries a
consumer list produced by `deduplicateConsumers`. -/
theorem deduplicateConsumers_unique_and_prefers_via
    (cs : List Consumer) (m : String) (rel : String → String) (fuel : Nat)
    (registry : ExportRegistry) (cmap : ConsumerMap) (row : ExportDependencyInfo) :
    (((deduplicateConsumers cs).filter (fun c => c.module = m)).length =
        if cs.any (fun c => c.module = m) then 1 else 0)
    ∧ ((∃ c ∈ cs, c.module = m ∧ c.via.isSome = true) →
        ∀ c ∈ deduplicateConsumers cs, c.module = m → c.via.isSome = true)
    ∧ (row ∈ buildDependencyOutput rel fuel registry cmap →
        ∃ csr, row.consumers = deduplicateConsumers csr) := by
  have hinv : SeenInv (cs.foldl dedupStep []) :=
    seenInv_foldl cs [] ⟨by intro p hp; simp at hp, by simp⟩
  have hperm := perm_insertionSort (fun a b : Consumer => stringLe a.module b.module)
    ((cs.foldl dedupStep []).map (·.2))
  refine ⟨?_, ?_, ?_⟩
  · simp only [deduplicateConsumers]
    rw [(hperm.filter _).length_eq, seen_values_filter_length _ hinv m]
    refine if_congr ?_ rfl rfl
    rw [mapGet_foldl_dedupStep_isSome]
    simp
  · intro hex c hc hcm
    simp only [deduplicateConsumers] at hc
    have hc2 := hperm.mem_iff.mp hc
    obtain ⟨p, hp, hpc⟩ := List.mem_map.mp hc2
    obtain ⟨cst, hcst, hcstvia⟩ := dedup_foldl_via m cs [] (Or.inl hex)
    have hkey : p.1 = m := by
      rw [← hinv.1 p hp, hpc, hcm]
    have hget : mapGet (cs.foldl dedupStep []) m = some c := by
      rw [← hkey]
      exact mapGet_of_mem_nodup _ hinv.2 p.1 c (by rw [← hpc]; exact hp)
    rw [hget] at hcst
    rw [Option.some_inj.mp hcst]
    exact hcstvia
  · intro h
    exact (buildDependencyOutput_rows rel fuel registry cmap row h).2

/-- Consumer list with a duplicated module, once without and once with
`via`. -/
def dupViaConsumers : List Consumer :=
  [{ module := "a" }, { module := "a", via := some ["b"] }, { module := "x" }]

/-- C8 (witness): on `dupViaConsumers`, exactly one record for module `a`
survives, and the record carrying `via` is the one kept. -/
theorem deduplicateConsumers_unique_and_prefers_via_witness :
    ((deduplicateConsumers dupViaConsumers).filter (fun c => c.module = "a")).length = 1
    ∧ ({ module := "a", via := some ["b"] } : Consumer).via.isSome = true := by
  constructor
  · exact ((deduplicateConsumers_unique_and_prefers_via dupViaConsumers "a" id 0 [] []
      ⟨"", "", 0, []⟩).1).trans (by decide)
  · exact (deduplicateConsumers_unique_and_prefers_via dupViaConsumers "a" id 0 [] []
      ⟨"", "", 0, []⟩).2.1 ⟨{ module := "a", via := some ["b"] }, by decide, rfl, rfl⟩
      { module := "a", via := some ["b"] } (by decide) rfl

/-! ### C10 — consumerCount equals the consumer list length -/

/-- C10: every row produced by `buildDependencyOutput` has `consumerCount`
equal to the length of its deduplicated `consumers` array. -/
theorem buildDependencyOutput_consumerCount (rel : String → String) (fuel : Nat)
    (registry : ExportRegistry) (cmap : ConsumerMap) (row : ExportDependencyInfo)
    (h : row ∈ buildDependencyOutput rel fuel registry cmap) :
    row.consumerCount = row.consumers.length :=
  (buildDependencyOutput_rows rel fuel registry cmap row h).1

/-- A consumer map with one duplicated consumer for `c::x`. -/
def dupConsumerMap : ConsumerMap :=
  [ (("c", "x"), [{ module := "d" }, { module := "d", via := some ["b"] }]) ]

/-- C10 (witness): the single output row for `directOnlyRegistry` with
`dupConsumerMap` has `consumerCount = 1 = length of its consumer list`. -/
theorem buildDependencyOutput_consumerCount_witness :
    (⟨"c", "x", 1, [{ module := "d", via := some ["b"] }]⟩ : ExportDependencyInfo).consumerCount =
      (⟨"c", "x", 1, [{ module := "d", via := some ["b"] }]⟩ : ExportDependencyInfo).consumers.length :=
  buildDependencyOutput_consumerCount id 5 directOnlyRegistry dupConsumerMap _ (by decide)

/-! ### Branch equations for `resolveExport` -/

theorem resolveExport_visited (rel : String → String) (registry : ExportRegistry)
    (fuel : Nat) (m n : String) (visited : List Key) (h : (m, n) ∈ visited) :
    resolveExport rel registry fuel m n visited = none := by
  cases fuel with
  | zero => rfl
  | succ f => rw [resolveExport_succ, if_pos h]

theorem resolveExport_entry_direct (rel : String → String) (registry : ExportRegistry)
    (fuel : Nat) (m n : String) (visited : List Key) (e : ExportEntry)
    (hv : (m, n) ∉ visited) (he : mapGet registry (m, n) = some e)
    (hdir : e.isReExport = false) :
    resolveExport rel registry (fuel + 1) m n visited = some ⟨m, n, []⟩ := by
  simp [resolveExport, hv, he, hdir]

theorem resolveExport_entry_re_none (rel : String → String) (registry : ExportRegistry)
    (fuel : Nat) (m n : String) (visited : List Key) (e : ExportEntry)
    (hv : (m, n) ∉ visited) (he : mapGet registry (m, n) = some e)
    (hre : ¬e.isReExport = false) (hsm : e.sourceModule = none) :
    resolveExport rel registry (fuel + 1) m n visited = none := by
  simp [resolveExport, hv, he, hre, hsm]

theorem resolveExport_entry_re_some (rel : String → String) (registry : ExportRegistry)
    (fuel : Nat) (m n : String) (visited : List Key) (e : ExportEntry) (sm : String)
    (hv : (m, n) ∉ visited) (he : mapGet registry (m, n) = some e)
    (hre : ¬e.isReExport = false) (hsm : e.sourceModule = some sm) :
    resolveExport rel registry (fuel + 1) m n visited =
      chainPrepend m (resolveExport rel registry fuel (rel sm)
        (e.sourceName.getD n) ((m, n) :: visited)) := by
  simp [resolveExport, hv, he, hre, hsm]

theorem resolveExport_absent_nostar (rel : String → String) (registry : ExportRegistry)
    (fuel : Nat) (m n : String) (visited : List Key)
    (hv : (m, n) ∉ visited) (habs : mapGet registry (m, n) = none)
    (hstar : mapGet registry (m, "*") = none) :
    resolveExport rel registry (fuel + 1) m n visited = none := by
  simp [resolveExport, hv, habs, hstar]

theorem resolveExport_star_re_none (rel : String → String) (registry : ExportRegistry)
    (fuel : Nat) (m n : String) (visited : List Key) (se : ExportEntry)
    (hv : (m, n) ∉ visited) (habs : mapGet registry (m, n) = none)
    (hstar : mapGet registry (m, "*") = some se) (hsm : se.sourceModule = none) :
    resolveExport rel registry (fuel + 1) m n visited = none := by
  simp [resolveExport, hv, habs, hstar, hsm]

theorem resolveExport_star_re_some (rel : String → String) (registry : ExportRegistry)
    (fuel : Nat) (m n : String) (visited : List Key) (se : ExportEntry) (sm : String)
    (hv : (m, n) ∉ visited) (habs : mapGet registry (m, n) = none)
    (hstar : mapGet registry (m, "*") = some se) (hsm : se.sourceModule = some sm) :
    resolveExport rel registry (fuel + 1) m n visited =
      chainPrepend m (resolveExport rel registry fuel (rel sm) n
        ((m, n) :: visited)) := by
  simp [resolveExport, hv, habs, hstar, hsm]

/-! ### C5 — termination and cycle safety -/

/-- Lemma: `mapGet` lookups come from the association list. -/
theorem mapGet_mem_of_eq_some {α β : Type} [DecidableEq α]
    (m : List (α × β)) (k : α) (v : β) (h : mapGet m k = some v) : (k, v) ∈ m := by
  induction m with
  | nil => simp [mapGet] at h
  | cons kv rest ih =>
      rw [mapGet_cons] at h
      by_cases hk : kv.1 = k
      · rw [if_pos hk] at h
        have : kv = (k, v) := by
          rcases kv with ⟨a, b⟩
          simp only [Option.some_inj] at h
          simp_all
        rw [← this]
        exact List.mem_cons_self _ _
      · rw [if_neg hk] at h
        exact List.mem_cons_of_mem _ (ih h)

/-- All modules a resolution step can move to: the `rel`-images of the
source modules recorded in the registry. -/
def regMods (rel : String → String) (registry : ExportRegistry) : Finset String :=
  (registry.filterMap (fun kv => kv.2.sourceModule.map rel)).toFinset

/-- All names a resolution step can rename to: the source names recorded in
the registry. -/
def regNames (registry : ExportRegistry) : Finset String :=
  (registry.filterMap (fun kv => kv.2.sourceName)).toFinset

/-- Every key reachable during a resolution of `(m0, n0)` lies in this
finite set. -/
def keyUniverse (rel : String → String) (registry : ExportRegistry)
    (m0 n0 : String) : Finset Key :=
  (insert m0 (regMods rel registry)) ×ˢ (insert n0 (regNames registry))

theorem self_mem_keyUniverse (rel : String → String) (registry : ExportRegistry)
    (m0 n0 : String) : (m0, n0) ∈ keyUniverse rel registry m0 n0 := by
  simp [keyUniverse]

theorem keyUniverse_entry_step (rel : String → String) (registry : ExportRegistry)
    (m0 n0 m n : String) (e : ExportEntry) (sm : String)
    (hU : (m, n) ∈ keyUniverse rel registry m0 n0)
    (he : mapGet registry (m, n) = some e) (hsm : e.sourceModule = some sm) :
    (rel sm, e.sourceName.getD n) ∈ keyUniverse rel registry m0 n0 := by
  have hmem := mapGet_mem_of_eq_some registry (m, n) e he
  have hmod : rel sm ∈ regMods rel registry := by
    simp only [regMods, List.mem_toFinset, List.mem_filterMap]
    exact ⟨((m, n), e), hmem, by rw [hsm]; rfl⟩
  rcases hU' : e.sourceName with _ | sn
  · have hn : n ∈ insert n0 (regNames registry) := by
      simp only [keyUniverse, Finset.mem_product] at hU
      exact hU.2
    simp only [keyUniverse, Finset.mem_product, hU', Option.getD_none]
    exact ⟨Finset.mem_insert_of_mem hmod, hn⟩
  · have hname : sn ∈ regNames registry := by
      simp only [regNames, List.mem_toFinset, List.mem_filterMap]
      exact ⟨((m, n), e), hmem, hU'⟩
    simp only [keyUniverse, Finset.mem_product, hU', Option.getD_some]
    exact ⟨Finset.mem_insert_of_mem hmod, Finset.mem_insert_of_mem hname⟩

theorem keyUniverse_star_step (rel : String → String) (registry : ExportRegistry)
    (m0 n0 m n : String) (se : ExportEntry) (sm : String)
    (hU : (m, n) ∈ keyUniverse rel registry m0 n0)
    (hstar : mapGet registry (m, "*") = some se) (hsm : se.sourceModule = some sm) :
    (rel sm, n) ∈ keyUniverse rel registry m0 n0 := by
  have hmem := mapGet_mem_of_eq_some registry (m, "*") se hstar
  have hmod : rel sm ∈ regMods rel registry := by
    simp only [regMods, List.mem_toFinset, List.mem_filterMap]
    exact ⟨((m, "*"), se), hmem, by rw [hsm]; rfl⟩
  have hn : n ∈ insert n0 (regNames registry) := by
    simp only [keyUniverse, Finset.mem_product] at hU
    exact hU.2
  simp only [keyUniverse, Finset.mem_product]
  exact ⟨Finset.mem_insert_of_mem hmod, hn⟩

/-- Fuel stability: once the fuel exceeds the number of reachable keys not
yet visited, the result of `resolveExport` no longer depends on the fuel —
the recursion of the source terminates. -/
theorem resolveExport_fuel_agree (rel : String → String) (registry : ExportRegistry)
    (m0 n0 : String) :
    ∀ (c fuel1 fuel2 : Nat) (m n : String) (visited : List Key),
      (m, n) ∈ keyUniverse rel registry m0 n0 →
      (keyUniverse rel registry m0 n0 \ visited.toFinset).card ≤ c →
      c < fuel1 → c < fuel2 →
      resolveExport rel registry fuel1 m n visited =
        resolveExport rel registry fuel2 m n visited := by
  intro c
  induction c using Nat.strong_induction_on with
  | _ c ih =>
    intro fuel1 fuel2 m n visited hU hcard h1 h2
    rcases fuel1 with _ | f1
    · omega
    rcases fuel2 with _ | f2
    · omega
    by_cases hv : (m, n) ∈ visited
    · rw [resolveExport_visited _ _ _ _ _ _ hv, resolveExport_visited _ _ _ _ _ _ hv]
    · have hmemdiff : (m, n) ∈ keyUniverse rel registry m0 n0 \ visited.toFinset :=
        Finset.mem_sdiff.mpr ⟨hU, by simp [hv]⟩
      have hcpos : 0 < (keyUniverse rel registry m0 n0 \ visited.toFinset).card :=
        Finset.card_pos.mpr ⟨_, hmemdiff⟩
      have hnewcard :
          (keyUniverse rel registry m0 n0 \ ((m, n) :: visited).toFinset).card ≤ c - 1 := by
        rw [List.toFinset_cons, Finset.sdiff_insert, Finset.card_erase_of_mem hmemdiff]
        omega
      have hih := ih (c - 1) (by omega)
      rcases hreg : mapGet registry (m, n) with _ | e
      · rcases hstar : mapGet registry (m, "*") with _ | se
        · rw [resolveExport_absent_nostar _ _ _ _ _ _ hv hreg hstar,
            resolveExport_absent_nostar _ _ _ _ _ _ hv hreg hstar]
        · rcases hsm : se.sourceModule with _ | sm
          · rw [resolveExport_star_re_none _ _ _ _ _ _ _ hv hreg hstar hsm,
              resolveExport_star_re_none _ _ _ _ _ _ _ hv hreg hstar hsm]
          · rw [resolveExport_star_re_some _ _ _ _ _ _ _ _ hv hreg hstar hsm,
              resolveExport_star_re_some _ _ _ _ _ _ _ _ hv hreg hstar hsm,
              hih f1 f2 (rel sm) n ((m, n) :: visited)
                (keyUniverse_star_step rel registry m0 n0 m n se sm hU hstar hsm)
                hnewcard (by omega) (by omega)]
      · by_cases hdir : e.isReExport = false
        · rw [resolveExport_entry_direct _ _ _ _ _ _ _ hv hreg hdir,
            resolveExport_entry_direct _ _ _ _ _ _ _ hv hreg hdir]
        · rcases hsm : e.sourceModule with _ | sm
          · rw [resolveExport_entry_re_none _ _ _ _ _ _ _ hv hreg hdir hsm,
              resolveExport_entry_re_none _ _ _ _ _ _ _ hv hreg hdir hsm]
          · rw [resolveExport_entry_re_some _ _ _ _ _ _ _ _ hv hreg hdir hsm,
              resolveExport_entry_re_some _ _ _ _ _ _ _ _ hv hreg hdir hsm,
              hih f1 f2 (rel sm) (e.sourceName.getD n) ((m, n) :: visited)
                (keyUniverse_entry_step rel registry m0 n0 m n e sm hU hreg hsm)
                hnewcard (by omega) (by omega)]

/-- C5: (i) `resolveExport` terminates on every registry: beyond the finite
bound `(keyUniverse rel registry m n).card`, adding fuel never changes the
result, so the fuel approximations converge for every input; (ii) on the
two-module cycle `a::x ↔ b::x`, resolution returns unresolved (`none`) at
every fuel instead of looping; (iii) the visited set receives the current
key before any recursive call: a key already visited resolves to `none`
immediately. -/
theorem resolveExport_terminates_and_cycle_safe :
    (∀ (rel : String → String) (registry : ExportRegistry) (m n : String) (fuel : Nat),
        (keyUniverse rel registry m n).card < fuel →
        resolveExport rel registry fuel m n [] =
          resolveExport rel registry ((keyUniverse rel registry m n).card + 1) m n [])
    ∧ (∀ fuel : Nat, resolveExport id cycleRegistry fuel "a" "x" [] = none)
    ∧ (∀ (rel : String → String) (registry : ExportRegistry) (fuel : Nat)
          (m n : String) (visited : List Key),
        (m, n) ∈ visited → resolveExport rel registry fuel m n visited = none) := by
  refine ⟨?_, ?_, ?_⟩
  · intro rel registry m n fuel hfuel
    exact resolveExport_fuel_agree rel registry m n (keyUniverse rel registry m n).card
      fuel ((keyUniverse rel registry m n).card + 1) m n []
      (self_mem_keyUniverse rel registry m n) (by simp) hfuel (by omega)
  · intro fuel
    rcases fuel with _ | (_ | (_ | f))
    · rfl
    · decide
    · decide
    · have h := resolveExport_fuel_agree id cycleRegistry "a" "x" 2 (f + 3) 3 "a" "x" []
        (self_mem_keyUniverse id cycleRegistry "a" "x") (by decide) (by omega) (by omega)
      exact h.trans (by decide)
  · intro rel registry fuel m n visited h
    exact resolveExport_visited rel registry fuel m n visited h

/-- C5 (witness): on the cyclic registry, fuel 10 and the converged fuel 3
agree, and a visited key resolves to `none`. -/
theorem resolveExport_terminates_and_cycle_safe_witness :
    resolveExport id cycleRegistry 10 "a" "x" [] =
        resolveExport id cycleRegistry 3 "a" "x" [] ∧
      resolveExport id cycleRegistry 5 "b" "x" [("b", "x")] = none := by
  constructor
  · have h := resolveExport_terminates_and_cycle_safe.1 id cycleRegistry "a" "x" 10
      (by decide)
    have hc : (keyUniverse id cycleRegistry "a" "x").card + 1 = 3 := by decide
    rw [hc] at h
    exact h
  · exact resolveExport_terminates_and_cycle_safe.2.2 id cycleRegistry 5 "b" "x"
      [("b", "x")] (by decide)

end WhoImports
